import Mathlib

/-!
Verification of the block extraction/injection and asset compaction tooling of
the ArduinoSMSTankAlarm repository.  The Python scripts
(`minify_script.py`, `TankAlarm-112025-Server-BluesOpta/update_html.py`,
`RecycleBin/extract_css.py`, `RecycleBin/fix_bom.py`) are shallowly embedded
over `List Char` (Python `str`) and `List Nat` (Python `bytes`).  All
definitions are structurally recursive so that the kernel can evaluate them on
concrete inputs.
-/

set_option maxRecDepth 40000

namespace TankAlarm

/-! ## Scanning primitives: Python `str.find` and slicing -/

/-- Model of Python `s.find(p)`: index of the first occurrence of `p` in `s`,
`none` when absent (Python returns `-1`). -/
def firstIdx (p : List Char) : List Char → Option Nat
  | [] => if p.isPrefixOf ([] : List Char) then some 0 else none
  | c :: t =>
    if p.isPrefixOf (c :: t) then some 0 else (firstIdx p t).map (· + 1)

/-- Model of Python `s.find(p, k)`: first occurrence at an index `≥ k`. -/
def findFrom (p s : List Char) (k : Nat) : Option Nat :=
  (firstIdx p (s.drop k)).map (· + k)

/-! ## Block extraction and injection (`minify_script.py`, lines 857-876)

`minify_script.py` locates `<style>`/`</style>` (and `<script>`/`</script>`)
with `find`, slices the payload out, and reassembles the host text as
`before ++ prefix ++ payload ++ suffix ++ after`.  `extractBlock`/`injectBlock`
are that locate-slice-splice skeleton for one wrapper pair; the `Option`
result records that both markers must be present. -/

def extractBlock (host pre suf : List Char) : Option (List Char) :=
  match firstIdx pre host, firstIdx suf host with
  | some i, some j => some ((host.drop (i + pre.length)).take (j - (i + pre.length)))
  | _, _ => none

def injectBlock (host pre suf payload : List Char) : Option (List Char) :=
  match firstIdx pre host, firstIdx suf host with
  | some i, some j => some (host.take i ++ pre ++ payload ++ suf ++ host.drop (j + suf.length))
  | _, _ => none

/-! ## `RecycleBin/fix_bom.py`

The script reads the file as bytes, and rewrites it with the first three bytes
removed exactly when the content starts with `EF BB BF`; otherwise it does not
write.  `none` models "no write". -/

def bomBytes : List Nat := [0xEF, 0xBB, 0xBF]

def fixBom (content : List Nat) : Option (List Nat) :=
  if bomBytes.isPrefixOf content then some (content.drop 3) else none

/-! ## `TankAlarm-112025-Server-BluesOpta/update_html.py`

The script splits the payload into 8000-character chunks
(`[html_content[i:i+8000] for i in range(0, len(html_content), 8000)]`),
wraps each chunk in `R"HTML(...)HTML"`, joins the wrapped chunks with single
spaces and appends `;`, then splices the rebuilt declaration between the
`CONFIG_GENERATOR_HTML` start marker and the `SERIAL_MONITOR_HTML` sibling
marker.  `chunkGo` is fuelled so the recursion is structural; `pyChunks`
supplies fuel `s.length`, which is always sufficient. -/

def chunkGo : Nat → List Char → List (List Char)
  | _, [] => []
  | 0, s => [s]
  | fuel + 1, c :: t => (c :: t).take 8000 :: chunkGo fuel ((c :: t).drop 8000)

def pyChunks (s : List Char) : List (List Char) :=
  chunkGo s.length s

def declPrefix : List Char :=
  "static const char CONFIG_GENERATOR_HTML[] PROGMEM = ".toList

def wrapPre : List Char := "R\"HTML(".toList

def wrapSuf : List Char := ")HTML\"".toList

def dokPrefix : List Char := "<!DOCTYPE html>".toList

def startMarker : List Char :=
  "static const char CONFIG_GENERATOR_HTML[] PROGMEM = R\"HTML(<!DOCTYPE html>".toList

def serialMarker : List Char := "static const char SERIAL_MONITOR_HTML".toList

def errStart : List Char := "Error: Could not find start marker".toList

def errEnd : List Char := "Error: Could not find end marker".toList

def nl2 : List Char := ['\n', '\n']

/-- Python `" ".join(parts)`. -/
def joinSep (sep : List Char) : List (List Char) → List Char
  | [] => []
  | [x] => x
  | x :: y :: ys => x ++ sep ++ joinSep sep (y :: ys)

/-- `new_cpp_val`: each chunk wrapped in the raw-string delimiters, joined with single spaces, with `;` appended. -/
def newCppVal (P : List Char) : List Char :=
  joinSep [' '] ((pyChunks P).map (fun c => wrapPre ++ c ++ wrapSuf)) ++ [';']

/-- The whole run of `update_html.py` on host `text` with payload `P`:
`Except.error msg` models "print diagnostic, `exit(1)`, no write";
`Except.ok newText` models "write `newText`" (the write is unconditional in
the script). -/
def updateHtml (text P : List Char) : Except (List Char) (List Char) :=
  match firstIdx startMarker text with
  | none => Except.error errStart
  | some i =>
    match findFrom serialMarker text i with
    | none => Except.error errEnd
    | some j =>
      Except.ok (text.take i ++ declPrefix ++ newCppVal P ++ nl2 ++ text.drop j)

/-- A host text that is already exactly the output of a previous injection of
the payload `<!DOCTYPE html>`. -/
def c8NoOpHost : List Char := declPrefix ++ newCppVal dokPrefix ++ nl2 ++ serialMarker

/-- A well-formed host for the C6 counterexample. -/
def c6Host : List Char := startMarker ++ ")HTML\";".toList ++ serialMarker

/-! ## Minification passes of `minify_script.py`

Each `re.sub` pass is modelled as a one-pass scanner over `List Char`,
faithful to leftmost, non-overlapping matching.  `isWs` is Python's `\s` on
the ASCII range (the embedded assets are ASCII).  Braces are written with
`\x7b`/`\x7d` escapes throughout. -/

def isWs (c : Char) : Bool :=
  c = ' ' || c = '\t' || c = '\n' || c = '\r' || c = '\x0b' || c = '\x0c'

/-- The CSS punctuation class `[:;{}]` of `minify_css`. -/
def isPunctCss (c : Char) : Bool :=
  c = ':' || c = ';' || c = '\x7b' || c = '\x7d'

/-- The JS operator class `[=+\-*/%&|<>!?:;,{}()\[\]]` of `minify_js`. -/
def isOpJs (c : Char) : Bool :=
  c = '=' || c = '+' || c = '-' || c = '*' || c = '/' || c = '%' || c = '&' || c = '|' ||
  c = '<' || c = '>' || c = '!' || c = '?' || c = ':' || c = ';' || c = ',' ||
  c = '\x7b' || c = '\x7d' || c = '(' || c = ')' || c = '[' || c = ']'

/-- Drop everything up to and including the first `*/`; `none` when absent. -/
def dropThroughClose : List Char → Option (List Char)
  | [] => none
  | '*' :: '/' :: rest => some rest
  | _ :: rest => dropThroughClose rest

/-- `re.sub(r'/\*.*?\*/', '', s, flags=re.DOTALL)`: leftmost non-greedy
block-comment removal.  When a `/*` has no closing `*/` anywhere after it, no
match at or after it is possible, so the remainder is kept verbatim.  Fuelled
(with `s.length`, always sufficient) to stay structurally recursive. -/
def rcGo : Nat → List Char → List Char
  | _, [] => []
  | 0, s => s
  | fuel + 1, '/' :: '*' :: rest =>
    (match dropThroughClose rest with
     | some rest2 => rcGo fuel rest2
     | none => '/' :: '*' :: rest)
  | fuel + 1, c :: rest => c :: rcGo fuel rest

def removeComments (s : List Char) : List Char := rcGo s.length s

/-- `re.sub(r'//.*', '', s)`: line comments run to the next newline
(exclusive), since `.` does not match `\n`. -/
def rlcGo : Nat → List Char → List Char
  | _, [] => []
  | 0, s => s
  | fuel + 1, '/' :: '/' :: rest => rlcGo fuel (rest.dropWhile (fun c => c ≠ '\n'))
  | fuel + 1, c :: rest => c :: rlcGo fuel rest

def removeLineComments (s : List Char) : List Char := rlcGo s.length s

/-- `re.sub(r'\s+', ' ', s)`: every maximal whitespace run becomes one space.
The flag records whether the previous character was part of a run. -/
def collapseWsGo : Bool → List Char → List Char
  | _, [] => []
  | prevWs, c :: rest =>
    if isWs c then
      (if prevWs then collapseWsGo true rest else ' ' :: collapseWsGo true rest)
    else c :: collapseWsGo false rest

def collapseWs (s : List Char) : List Char := collapseWsGo false s

/-- `re.sub(r'\s*([P])\s*', r'\1', s)` for a punctuation class `isP`: a
whitespace run is deleted exactly when the non-whitespace character before it
is in the class (`afterP`) or the character after it is (`buf` is the pending
run, discarded on reaching a class character). -/
def punctGo (isP : Char → Bool) : Bool → List Char → List Char → List Char
  | afterP, buf, [] => if afterP then [] else buf
  | afterP, buf, c :: rest =>
    if isWs c then punctGo isP afterP (buf ++ [c]) rest
    else if isP c then c :: punctGo isP true [] rest
    else (if afterP then [] else buf) ++ c :: punctGo isP false [] rest

def punctStripWith (isP : Char → Bool) (s : List Char) : List Char :=
  punctGo isP false [] s

/-- Python `s.replace(t, r)`: leftmost, non-overlapping, all occurrences.
After a match the remaining `t.length - 1` matched characters are skipped via
the counter, keeping the recursion structural. -/
def repGo (t r : List Char) : Nat → List Char → List Char
  | _ + 1, [] => []
  | skip + 1, _ :: rest => repGo t r skip rest
  | 0, [] => []
  | 0, c :: rest =>
    if t.isPrefixOf (c :: rest) then r ++ repGo t r (t.length - 1) rest
    else c :: repGo t r 0 rest

def replaceAll (t r s : List Char) : List Char :=
  if t.isEmpty then r ++ s.flatMap (fun c => c :: r)
  else repGo t r 0 s

/-- Python `s.strip()` on ASCII whitespace. -/
def pyStrip (s : List Char) : List Char :=
  ((s.dropWhile isWs).reverse.dropWhile isWs).reverse

def semiBrace : List Char := [';', '\x7d']

def closeBrace : List Char := ['\x7d']

/-- `minify_css` (`minify_script.py` lines 798-803): strip block comments,
collapse whitespace, remove whitespace around `:;{}`, replace `;}` by `}`,
then strip. -/
def minify_css (css : List Char) : List Char :=
  pyStrip (replaceAll semiBrace closeBrace
    (punctStripWith isPunctCss (collapseWs (removeComments css))))

/-- `minify_js` (`minify_script.py` lines 850-855): strip line comments, strip
block comments, collapse whitespace, remove whitespace around the operator
class, then strip. -/
def minify_js (js : List Char) : List Char :=
  pyStrip (punctStripWith isOpJs (collapseWs (removeComments (removeLineComments js))))

/-- The rename table of `update_js` (`minify_script.py` lines 811-846), in
source order. -/
def jsRenames : List (List Char × List Char) :=
  [("client.tanks".toList, "client.ts".toList),
   ("client.client".toList, "client.c".toList),
   ("client.site".toList, "client.s".toList),
   ("client.label".toList, "client.n".toList),
   ("client.tank".toList, "client.k".toList),
   ("client.levelInches".toList, "client.l".toList),
   ("client.percent".toList, "client.p".toList),
   ("client.alarm".toList, "client.a".toList),
   ("client.alarmType".toList, "client.at".toList),
   ("client.lastUpdate".toList, "client.u".toList),
   ("client.vinVoltage".toList, "client.v".toList),
   ("tank.label".toList, "tank.n".toList),
   ("tank.tank".toList, "tank.k".toList),
   ("tank.levelInches".toList, "tank.l".toList),
   ("tank.percent".toList, "tank.p".toList),
   ("tank.alarm".toList, "tank.a".toList),
   ("tank.alarmType".toList, "tank.at".toList),
   ("tank.lastUpdate".toList, "tank.u".toList),
   ("data.clients".toList, "data.cs".toList),
   ("data.server".toList, "data.srv".toList),
   ("serverInfo.name".toList, "serverInfo.n".toList),
   ("data.serverUid".toList, "data.si".toList),
   ("serverInfo.clientFleet".toList, "serverInfo.cf".toList),
   ("data.nextDailyEmailEpoch".toList, "data.nde".toList),
   ("data.lastSyncEpoch".toList, "data.lse".toList),
   ("serverInfo.paused".toList, "serverInfo.ps".toList),
   ("serverInfo.pinConfigured".toList, "serverInfo.pc".toList),
   ("body: JSON.stringify(\x7b client: clientUid \x7d)".toList,
    "body: JSON.stringify(\x7b c: clientUid \x7d)".toList),
   ("body: JSON.stringify(\x7b paused: targetPaused, pin: state.pin || '' \x7d)".toList,
    "body: JSON.stringify(\x7b ps: targetPaused, pin: state.pin || '' \x7d)".toList),
   ("state.paused = !!data.paused".toList, "state.paused = !!data.ps".toList)]

/-- `update_js` applies the rename table in source order, each entry as a
global `str.replace`. -/
def update_js (js : List Char) : List Char :=
  jsRenames.foldl (fun acc pr => replaceAll pr.1 pr.2 acc) js

/-! ### C3: normal-form invariants of the minification passes

After one `minify_css` pass the output has three structural properties —
every whitespace character is a single space (`wsSingle`), no two whitespace
characters are adjacent (`noDoubleWs`), and no whitespace is adjacent to a
`[:;{}]` character (`noClassWs`) — which make the whitespace passes of a
second application the identity. -/

abbrev wsSingle (s : List Char) : Prop := ∀ c ∈ s, isWs c = true → c = ' '

abbrev noDoubleWs (s : List Char) : Prop :=
  s.Chain' (fun a b => ¬(isWs a = true ∧ isWs b = true))

abbrev noClassWs (isP : Char → Bool) (s : List Char) : Prop :=
  s.Chain' (fun a b => ¬(isWs a = true ∧ isP b = true) ∧ ¬(isP a = true ∧ isWs b = true))

/-! ## `RecycleBin/extract_css.py`: style rule deduplication

`process_file` (lines 22-67) collects `(name, css)` blocks, stable-sorts them
by `sort_key`, splits each stylesheet on `}`, and keeps a rule exactly when
its whitespace-stripped signature has not been seen. -/

/-- `re.sub(r'\s', '', rule)`: the normalized signature, used only for
duplicate comparison. -/
def normSig (s : List Char) : List Char := s.filter (fun c => !(isWs c))

/-- Python `css.split('}')`. -/
def splitOnRB : List Char → List (List Char)
  | [] => [[]]
  | c :: rest =>
    if c = '\x7d' then [] :: splitOnRB rest
    else
      match splitOnRB rest with
      | p :: ps => (c :: p) :: ps
      | [] => [[c]]

/-- Lines 54-59: split on `}`, strip each fragment, drop empty fragments,
re-append the closing brace to each survivor. -/
def rulesOf (css : List Char) : List (List Char) :=
  (splitOnRB css).filterMap (fun p =>
    let q := pyStrip p
    if q = [] then none else some (q ++ ['\x7d']))

def priority_pages : List String :=
  ["CLIENT_CONSOLE", "DASHBOARD", "CONTACTS_MANAGER", "SERVER_SETTINGS", "HISTORICAL_DATA"]

/-- Python `list.index`, as an `Option` (the script only calls it on members). -/
def idxIn : List String → String → Option Nat
  | [], _ => none
  | p :: ps, n => if n = p then some 0 else (idxIn ps n).map (· + 1)

/-- `sort_key` (lines 43-47): a priority page sorts by its list index,
everything else gets 999. -/
def sort_key (item : String × List Char) : Nat :=
  match idxIn priority_pages item.1 with
  | some i => i
  | none => 999

/-- Stable insertion: an element passes everything with a strictly smaller key
and lands before equal keys that came later in the input. -/
def insB (x : String × List Char) :
    List (String × List Char) → List (String × List Char)
  | [] => [x]
  | y :: ys => if sort_key y < sort_key x then y :: insB x ys else x :: y :: ys

/-- Python's `extracted_styles.sort(key=sort_key)`: Timsort is stable, and
every stable sort by the same key computes the same list, here realised as
insertion sort. -/
def pySortBlocks (l : List (String × List Char)) : List (String × List Char) :=
  l.foldr insB []

/-- The specification of a stable sort for this key: the key-0 blocks in input
order, then key 1, ..., then key 4, then the non-priority (999) blocks in
input order. -/
def sortSpec (l : List (String × List Char)) : List (String × List Char) :=
  ([0, 1, 2, 3, 4, 999] : List Nat).flatMap
    (fun v => l.filter (fun b => sort_key b == v))

/-- Lines 51-65: keep a rule iff its normalized signature is unseen. -/
def dedupeLoop : List (List Char) → List (List Char) → List (List Char)
  | _, [] => []
  | seen, r :: rs =>
    if normSig r ∈ seen then dedupeLoop seen rs
    else r :: dedupeLoop (normSig r :: seen) rs

/-- The MasterStylesheet rule list (`master_blocks` in the script). -/
def master_blocks (blocks : List (String × List Char)) : List (List Char) :=
  dedupeLoop [] ((pySortBlocks blocks).flatMap (fun b => rulesOf b.2))

/-- `extract_css.py`, line 75: the STYLE_CSS insertion-point marker. -/
def cssMarker : List Char := "static const char SERVER_SETTINGS_HTML[]".toList

/-- `extract_css.py`, line 78: the diagnostic printed when the insertion-point
marker is absent. -/
def cssNotFoundMsg : List Char := "Could not find insertion point for STYLE_CSS".toList

/-- `extract_css.py`, line 72 with an empty master stylesheet: a concrete
STYLE_CSS variable definition, used by the C7 counterexample and witness. -/
def cssStyleVarDef : List Char :=
  "static const char STYLE_CSS[] PROGMEM = R\"CSS()CSS\";\n\n".toList

/-- `extract_css.py`, lines 74-79: the STYLE_CSS insertion-point check, with a
run's outcome given as (content written back to the file, messages printed,
process exit status).  When the marker is present, the script mutates the
content with `str.replace` (line 76) and processing continues — `rest` stands
for the remaining steps 4-6 and the final write.  When the marker is absent,
the script prints `Could not find insertion point for STYLE_CSS` and returns
from `process_file` normally: nothing is written, and the interpreter exits
with status 0 (there is no `sys.exit` on this path). -/
def cssInsertRun (rest : List Char → Option (List Char) × List (List Char) × Nat)
    (content styleVarDef : List Char) : Option (List Char) × List (List Char) × Nat :=
  match firstIdx cssMarker content with
  | some _ => rest (replaceAll cssMarker (styleVarDef ++ cssMarker) content)
  | none => (none, [cssNotFoundMsg], 0)

/-! ### C6: injection idempotence, amended

The second injection relocates the markers in the once-injected text.  The
start marker is found again at `i` because the rebuilt declaration reproduces
it (the payload starts with `<!DOCTYPE html>`) and the marker has no proper
border, so no occurrence can straddle the splice point; the end marker is
found exactly at the start of the preserved tail when it does not occur inside
the rebuilt declaration. -/

/-- `p` has no proper border: no nonempty proper suffix of `p` is also a
prefix of `p`. -/
abbrev noBorderP (p : List Char) : Prop :=
  ∀ d ∈ List.range p.length, 0 < d → p.drop d ≠ p.take (p.length - d)

/-- Concrete host for the C6 witness: the start marker, a closed raw-string
tail, then the sibling marker. -/
def c6WitnessHost : List Char := startMarker ++ ")HTML\";\n".toList ++ serialMarker


/-! ## Helper lemmas about `firstIdx` -/

theorem isPrefixOfIff {α : Type} [BEq α] [LawfulBEq α] {p l : List α} :
    p.isPrefixOf l = true ↔ p <+: l :=
  List.isPrefixOf_iff_prefix

theorem take_pre {α : Type} (n : Nat) (l : List α) : l.take n <+: l :=
  List.take_prefix n l

theorem pre_of_append {α : Type} (l r : List α) : l <+: l ++ r :=
  List.prefix_append l r

theorem firstIdx_found {p s : List Char} {i : Nat} (h : firstIdx p s = some i) :
    p <+: s.drop i := by
  induction s generalizing i with
  | nil =>
    rw [firstIdx] at h
    split at h
    · cases h
      have := isPrefixOfIff.mp (by assumption)
      simpa using this
    · cases h
  | cons c t ih =>
    rw [firstIdx] at h
    split at h
    · cases h
      have := isPrefixOfIff.mp (by assumption)
      simpa using this
    · cases hfi : firstIdx p t with
      | none => rw [hfi] at h; cases h
      | some k =>
        rw [hfi] at h
        simp only [Option.map_some'] at h
        cases h
        simpa using ih hfi

theorem firstIdx_min {p s : List Char} {i : Nat} (h : firstIdx p s = some i) :
    ∀ q, q < i → ¬ p <+: s.drop q := by
  induction s generalizing i with
  | nil =>
    rw [firstIdx] at h
    split at h
    · cases h; omega
    · cases h
  | cons c t ih =>
    rw [firstIdx] at h
    split at h
    · cases h; omega
    · cases hfi : firstIdx p t with
      | none => rw [hfi] at h; cases h
      | some k =>
        rw [hfi] at h
        simp only [Option.map_some'] at h
        cases h
        intro q hq
        cases q with
        | zero =>
          intro hpre
          exact (by assumption : ¬ p.isPrefixOf (c :: t) = true)
            (isPrefixOfIff.mpr (by simpa using hpre))
        | succ q' =>
          intro hpre
          exact ih hfi q' (by omega) (by simpa using hpre)

theorem firstIdx_of_prefix_min {p s : List Char} {i : Nat}
    (hpre : p <+: s.drop i) (hmin : ∀ q, q < i → ¬ p <+: s.drop q) :
    firstIdx p s = some i := by
  induction s generalizing i with
  | nil =>
    cases i with
    | zero =>
      rw [firstIdx, if_pos (isPrefixOfIff.mpr (by simpa using hpre))]
    | succ i' =>
      have h0 : p <+: List.drop 0 ([] : List Char) := by
        simpa using (by simpa using hpre : p <+: ([] : List Char))
      exact absurd h0 (hmin 0 (by omega))
  | cons c t ih =>
    cases i with
    | zero =>
      rw [firstIdx, if_pos (isPrefixOfIff.mpr (by simpa using hpre))]
    | succ i' =>
      rw [firstIdx, if_neg]
      · have hrec : firstIdx p t = some i' := by
          apply ih (by simpa using hpre)
          intro q hq
          have := hmin (q + 1) (by omega)
          simpa using this
        rw [hrec]; rfl
      · intro hp
        exact hmin 0 (by omega) (by simpa using isPrefixOfIff.mp hp)

theorem firstIdx_none {p s : List Char} (h : firstIdx p s = none) :
    ∀ q, ¬ p <+: s.drop q := by
  induction s with
  | nil =>
    rw [firstIdx] at h
    split at h
    · cases h
    · intro q hq
      exact (by assumption : ¬ p.isPrefixOf ([] : List Char) = true)
        (isPrefixOfIff.mpr (by simpa using hq))
  | cons c t ih =>
    rw [firstIdx] at h
    split at h
    · cases h
    · cases hfi : firstIdx p t with
      | none =>
        intro q
        cases q with
        | zero =>
          intro hpre
          exact (by assumption : ¬ p.isPrefixOf (c :: t) = true)
            (isPrefixOfIff.mpr (by simpa using hpre))
        | succ q' => simpa using ih hfi q'
      | some k => rw [hfi] at h; cases h

/-- A list decomposes around any of its prefixes. -/
theorem prefix_decomp {p l : List Char} (h : p <+: l) :
    l = p ++ l.drop p.length := by
  obtain ⟨r, hr⟩ := h
  subst hr
  simp

/-- Claim C1: round-trip identity.  When the host text contains the wrapper
prefix (first occurrence at `i`) and the wrapper suffix (first occurrence at
`j`, not before the end of the prefix), splicing the unmodified extracted
payload back between the same wrappers reproduces the host text
byte-for-byte. -/
theorem c1_round_trip_identity (host pre suf : List Char) (i j : Nat)
    (hp : firstIdx pre host = some i) (hs : firstIdx suf host = some j)
    (hij : i + pre.length ≤ j) :
    (extractBlock host pre suf).bind (fun payload => injectBlock host pre suf payload)
      = some host := by
  have hpre : pre <+: host.drop i := firstIdx_found hp
  have hsuf : suf <+: host.drop j := firstIdx_found hs
  unfold extractBlock injectBlock
  rw [hp, hs]
  simp only [Option.some_bind]
  congr 1
  have d2 : host.drop i = pre ++ host.drop (i + pre.length) := by
    have h2 := prefix_decomp hpre
    rw [List.drop_drop] at h2
    exact h2
  have d3 : host.drop (i + pre.length)
      = (host.drop (i + pre.length)).take (j - (i + pre.length)) ++ host.drop j := by
    have h3 := (List.take_append_drop (j - (i + pre.length)) (host.drop (i + pre.length))).symm
    rw [List.drop_drop] at h3
    rw [show i + pre.length + (j - (i + pre.length)) = j by omega] at h3
    exact h3
  have d4 : host.drop j = suf ++ host.drop (j + suf.length) := by
    have h4 := prefix_decomp hsuf
    rw [List.drop_drop] at h4
    exact h4
  conv_rhs => rw [(List.take_append_drop i host).symm, d2, d3, d4]
  simp [List.append_assoc]

/-- Witness for C1 at a concrete host text with a `<style>` block. -/
theorem c1_round_trip_identity_witness :
    firstIdx ("<style>".toList) ("A<style>x</style>B".toList) = some 1 ∧
    firstIdx ("</style>".toList) ("A<style>x</style>B".toList) = some 9 ∧
    1 + ("<style>".toList).length ≤ 9 ∧
    (extractBlock ("A<style>x</style>B".toList) ("<style>".toList) ("</style>".toList)).bind
        (fun payload =>
          injectBlock ("A<style>x</style>B".toList) ("<style>".toList) ("</style>".toList) payload)
      = some ("A<style>x</style>B".toList) :=
  ⟨by decide, by decide, by decide,
    c1_round_trip_identity ("A<style>x</style>B".toList) ("<style>".toList) ("</style>".toList)
      1 9 (by decide) (by decide) (by decide)⟩

/-- Claim C10: BOM fix frame condition.  A content starting with the BOM is
rewritten to exactly the remainder after the three BOM bytes (every remaining
byte unchanged, so a second BOM is retained), and a content not starting with
the BOM is never written. -/
theorem c10_bom_frame (rest c : List Nat) :
    fixBom (bomBytes ++ rest) = some rest ∧
    (¬ bomBytes <+: c → fixBom c = none) := by
  constructor
  · unfold fixBom
    rw [if_pos (isPrefixOfIff.mpr (pre_of_append _ _))]
    rw [show (3 : Nat) = bomBytes.length from rfl, List.drop_left]
  · intro h
    unfold fixBom
    rw [if_neg (fun hp => h (isPrefixOfIff.mp hp))]

/-- Witness for C10: a double BOM keeps its second copy; a BOM-free content is
not written. -/
theorem c10_bom_frame_witness :
    fixBom (bomBytes ++ (bomBytes ++ [65])) = some (bomBytes ++ [65]) ∧
    fixBom [65] = none :=
  ⟨(c10_bom_frame (bomBytes ++ [65]) [65]).1,
   (c10_bom_frame (bomBytes ++ [65]) [65]).2 (by decide)⟩

/-! ### C9: chunk arithmetic -/

theorem chunkGo_join (f : Nat) : ∀ s : List Char, s.length ≤ f → (chunkGo f s).flatten = s := by
  induction f with
  | zero =>
    intro s hs
    have : s = [] := List.eq_nil_of_length_eq_zero (by omega)
    subst this
    rfl
  | succ f ih =>
    intro s hs
    cases s with
    | nil => rfl
    | cons c t =>
      rw [chunkGo, List.flatten_cons]
      rw [ih ((c :: t).drop 8000) (by rw [List.length_drop]; omega)]
      exact List.take_append_drop 8000 (c :: t)

theorem chunkGo_two (f : Nat) (s : List Char) (hs : s.length ≤ f) (hlong : 8000 < s.length) :
    2 ≤ (chunkGo f s).length := by
  cases f with
  | zero => omega
  | succ f =>
    cases s with
    | nil => simp at hlong
    | cons c t =>
      rw [chunkGo]
      have hdrop : 1 ≤ ((c :: t).drop 8000).length := by
        rw [List.length_drop]
        omega
      have hone : 1 ≤ (chunkGo f ((c :: t).drop 8000)).length := by
        cases f with
        | zero => omega
        | succ f' =>
          cases hd : (c :: t).drop 8000 with
          | nil => rw [hd] at hdrop; simp at hdrop
          | cons d r => rw [chunkGo]; simp
      simp only [List.length_cons]
      omega

/-- Claim C9: chunked injection representation.  Concatenating the 8000-char
chunks in order reconstructs the payload exactly, and a payload longer than
8000 characters produces more than one chunk (hence more than one
`R"HTML(...)HTML"` wrapper pair in `newCppVal`). -/
theorem c9_chunked_injection (P : List Char) :
    (pyChunks P).flatten = P ∧ (8000 < P.length → 2 ≤ (pyChunks P).length) :=
  ⟨chunkGo_join P.length P (Nat.le_refl _),
   fun h => chunkGo_two P.length P (Nat.le_refl _) h⟩

/-- Witness for C9 on a 8001-character payload. -/
theorem c9_chunked_injection_witness :
    8000 < (List.replicate 8001 'a').length ∧
    2 ≤ (pyChunks (List.replicate 8001 'a')).length :=
  ⟨by rw [List.length_replicate]; norm_num,
   (c9_chunked_injection (List.replicate 8001 'a')).2
     (by rw [List.length_replicate]; norm_num)⟩

/-! ### C7: NotFound leaves the host untouched, but only one script fails -/

/-- Claim C7, counterexample: on the cited `extract_css.py` path, a host
without the insertion marker yields the diagnostic and a plain `return` from
`process_file` — nothing is written, but the process exit status is 0, not
non-zero as the claim asserts. -/
theorem c7_exit_zero_counterexample :
    firstIdx cssMarker "int x;".toList = none ∧
    cssInsertRun (fun c => (some c, [], 0)) "int x;".toList cssStyleVarDef
      = (none, [cssNotFoundMsg], 0) := by
  decide

/-- Claim C7 (amended): a missing marker leaves the host untouched on both
cited paths, but only `update_html.py` exits non-zero.  When the start marker
is absent, or the terminating sibling marker is absent after it,
`update_html.py` prints a diagnostic naming the missing marker and exits 1
without writing the host file (the `Except.error` results); when the
insertion-point marker is absent, `extract_css.py` prints its diagnostic and
returns normally — no write occurs, and the process exits with status 0. -/
theorem c7_notfound_no_write_amended (text P content styleVarDef : List Char)
    (rest : List Char → Option (List Char) × List (List Char) × Nat) :
    (firstIdx startMarker text = none → updateHtml text P = Except.error errStart) ∧
    (∀ i, firstIdx startMarker text = some i → findFrom serialMarker text i = none →
      updateHtml text P = Except.error errEnd) ∧
    (firstIdx cssMarker content = none →
      cssInsertRun rest content styleVarDef = (none, [cssNotFoundMsg], 0)) := by
  refine ⟨?_, ?_, ?_⟩
  · intro h
    simp only [updateHtml, h]
  · intro i h1 h2
    simp only [updateHtml, h1, h2]
  · intro h
    simp only [cssInsertRun, h]

/-- Witness for C7's amended theorem: a host without the start marker, a host
with the start marker but no end marker, and a host without the insertion
marker. -/
theorem c7_notfound_no_write_amended_witness :
    updateHtml ("abc".toList) [] = Except.error errStart ∧
    updateHtml startMarker [] = Except.error errEnd ∧
    cssInsertRun (fun c => (some c, [], 0)) "if (x) return;".toList cssStyleVarDef
      = (none, [cssNotFoundMsg], 0) :=
  ⟨(c7_notfound_no_write_amended ("abc".toList) [] ("if (x) return;".toList)
      cssStyleVarDef (fun c => (some c, [], 0))).1 (by decide),
   (c7_notfound_no_write_amended startMarker [] ("if (x) return;".toList)
      cssStyleVarDef (fun c => (some c, [], 0))).2.1 0 (by decide) (by decide),
   (c7_notfound_no_write_amended ("abc".toList) [] ("if (x) return;".toList)
      cssStyleVarDef (fun c => (some c, [], 0))).2.2 (by decide)⟩

/-! ### C8: the write is unconditional on the success path -/

/-- Claim C8 (amended): `update_html.py` performs the write whenever both
markers are located, writing the spliced text regardless of whether it differs
from the text read — there is no no-op detection in this script. -/
theorem c8_write_on_success (text P : List Char) (i j : Nat)
    (h1 : firstIdx startMarker text = some i)
    (h2 : findFrom serialMarker text i = some j) :
    updateHtml text P
      = Except.ok (text.take i ++ declPrefix ++ newCppVal P ++ nl2 ++ text.drop j) := by
  simp only [updateHtml, h1, h2]

/-- Witness for C8's amended theorem at a concrete host. -/
theorem c8_write_on_success_witness :
    updateHtml (startMarker ++ serialMarker) dokPrefix
      = Except.ok ((startMarker ++ serialMarker).take 0 ++ declPrefix ++ newCppVal dokPrefix
          ++ nl2 ++ (startMarker ++ serialMarker).drop startMarker.length) :=
  c8_write_on_success (startMarker ++ serialMarker) dokPrefix 0 startMarker.length
    (by decide) (by decide)

/-- Counterexample to C8 as stated: on this host the transformed text equals
the text read, yet the script still writes it (`some _` = a write happens,
and the written text equals the input). -/
theorem c8_noop_counterexample :
    (updateHtml c8NoOpHost dokPrefix).toOption = some c8NoOpHost := by decide

/-- Counterexample to C6 as stated: with payload `"X"` (which does not start
with `<!DOCTYPE html>`), both markers are present in the host, the first
injection succeeds, but the second injection fails (the rebuilt text no longer
contains the start marker), so injecting twice differs from injecting once. -/
theorem c6_inject_not_idempotent :
    ((updateHtml c6Host ['X']).toOption.bind fun u => (updateHtml u ['X']).toOption)
      ≠ (updateHtml c6Host ['X']).toOption := by decide

/-- Claim C2 evaluation: because `client.alarm` is replaced before
`client.alarmType` (and `data.server` before `data.serverUid`), the long
forms `client.alarmType` / `data.serverUid` come out as `client.aType` /
`data.srvUid`; the mapped short forms `client.at` / `data.si` never appear in
the final output. -/
theorem c2_rename_dead_entries :
    minify_js (update_js ("x = client.alarmType ; y = data.serverUid ;".toList))
      = "x=client.aType;y=data.srvUid;".toList ∧
    firstIdx ("client.at".toList)
      (minify_js (update_js ("x = client.alarmType ; y = data.serverUid ;".toList))) = none ∧
    firstIdx ("data.si".toList)
      (minify_js (update_js ("x = client.alarmType ; y = data.serverUid ;".toList))) = none :=
  ⟨by decide, by decide, by decide⟩

/-- Counterexample to C3 as stated: `minify_css` is not idempotent on `";;}"`
(one application yields `";}"`, a second yields `"}"`). -/
theorem c3_not_idempotent :
    minify_css (minify_css (";;\x7d".toList)) ≠ minify_css (";;\x7d".toList) := by decide

theorem punctCss_not_ws : ∀ c : Char, isPunctCss c = true → isWs c = false := by
  intro c h
  simp only [isPunctCss, Bool.or_eq_true, decide_eq_true_eq] at h
  obtain ((h | h) | h) | h := h <;> subst h <;> decide

theorem chain'_of_suffix {α : Type} {R : α → α → Prop} {l l' : List α}
    (h : List.Chain' R l) (hs : l' <:+ l) : List.Chain' R l' := by
  obtain ⟨t, ht⟩ := hs
  subst ht
  exact (List.chain'_append.mp h).2.1

theorem chain'_reverse_of_symm {α : Type} {R : α → α → Prop}
    (hsym : ∀ a b, R a b → R b a) {l : List α} (h : List.Chain' R l) :
    List.Chain' R l.reverse := by
  rw [List.chain'_reverse]
  exact h.imp (fun a b hab => hsym a b hab)

/-! #### `collapseWs` establishes and respects the whitespace normal form -/

theorem collapseWsGo_wsSingle (s : List Char) : ∀ b, wsSingle (collapseWsGo b s) := by
  induction s with
  | nil => intro b c hc; cases hc
  | cons a rest ih =>
    intro b c hc hwc
    rw [collapseWsGo] at hc
    by_cases hwa : isWs a = true
    · rw [if_pos hwa] at hc
      cases b with
      | true => exact ih true c hc hwc
      | false =>
        rw [if_neg (by decide)] at hc
        rcases List.mem_cons.mp hc with h | h
        · exact h
        · exact ih true c h hwc
    · rw [if_neg hwa] at hc
      rcases List.mem_cons.mp hc with h | h
      · subst h; exact absurd hwc hwa
      · exact ih false c h hwc

theorem collapseWsGo_true_head (s : List Char) :
    ∀ c, (collapseWsGo true s).head? = some c → isWs c = false := by
  induction s with
  | nil => intro c h; cases h
  | cons a rest ih =>
    intro c h
    rw [collapseWsGo] at h
    by_cases hwa : isWs a = true
    · rw [if_pos hwa, if_pos rfl] at h
      exact ih c h
    · rw [if_neg hwa] at h
      cases h
      simpa using hwa

theorem collapseWsGo_noDouble (s : List Char) : ∀ b, noDoubleWs (collapseWsGo b s) := by
  induction s with
  | nil => intro b; rw [collapseWsGo]; exact List.chain'_nil
  | cons a rest ih =>
    intro b
    rw [collapseWsGo]
    by_cases hwa : isWs a = true
    · rw [if_pos hwa]
      cases b with
      | true => exact ih true
      | false =>
        rw [if_neg (by decide)]
        refine List.chain'_cons'.mpr ⟨?_, ih true⟩
        intro y hy ⟨_, hwy⟩
        exact absurd hwy (by rw [collapseWsGo_true_head rest y hy]; decide)
    · rw [if_neg hwa]
      refine List.chain'_cons'.mpr ⟨?_, ih false⟩
      intro y hy ⟨hwa', _⟩
      exact hwa hwa'

theorem collapseWsGo_id (s : List Char) : ∀ b, wsSingle s → noDoubleWs s →
    (b = true → ∀ c, s.head? = some c → isWs c = false) → collapseWsGo b s = s := by
  induction s with
  | nil => intro b _ _ _; rfl
  | cons a rest ih =>
    intro b hws hnd hb
    by_cases hwa : isWs a = true
    · have hbf : b = false := by
        cases b with
        | false => rfl
        | true => exact absurd hwa (by rw [hb rfl a rfl]; decide)
      subst hbf
      rw [collapseWsGo, if_pos hwa, if_neg (by decide)]
      have ha : a = ' ' := hws a (List.mem_cons_self a rest) hwa
      rw [ha]
      congr 1
      refine ih true (fun c hc hwc => hws c (List.mem_cons_of_mem a hc) hwc)
        ((List.chain'_cons'.mp hnd).2) ?_
      intro _ c hc
      by_contra hcon
      exact ((List.chain'_cons'.mp hnd).1 c hc) ⟨hwa, by simpa using hcon⟩
    · rw [collapseWsGo, if_neg hwa]
      congr 1
      exact ih false (fun c hc hwc => hws c (List.mem_cons_of_mem a hc) hwc)
        ((List.chain'_cons'.mp hnd).2) (by intro h; cases h)

/-! #### `punctStripWith` establishes the no-whitespace-next-to-class form -/

theorem allWs_noClassWs (isP : Char → Bool) (hd : ∀ c, isP c = true → isWs c = false)
    (l : List Char) (h : ∀ x ∈ l, isWs x = true) : noClassWs isP l := by
  induction l with
  | nil => exact List.chain'_nil
  | cons a t ih =>
    refine List.chain'_cons'.mpr ⟨?_, ih (fun x hx => h x (List.mem_cons_of_mem a hx))⟩
    intro y hy
    have hwy : isWs y = true := h y (List.mem_cons_of_mem a (List.mem_of_mem_head? hy))
    constructor
    · rintro ⟨_, hPy⟩
      rw [hd y hPy] at hwy; cases hwy
    · rintro ⟨hPa, _⟩
      have hwa := h a (List.mem_cons_self a t)
      rw [hd a hPa] at hwa; cases hwa

theorem punctGo_true_head (isP : Char → Bool) (_hd : ∀ c, isP c = true → isWs c = false) :
    ∀ (s buf : List Char) (c : Char),
      (punctGo isP true buf s).head? = some c → isWs c = false := by
  intro s
  induction s with
  | nil => intro buf c h; rw [punctGo, if_pos rfl] at h; cases h
  | cons a rest ih =>
    intro buf c h
    rw [punctGo] at h
    by_cases hwa : isWs a = true
    · rw [if_pos hwa] at h
      exact ih (buf ++ [a]) c h
    · rw [if_neg hwa] at h
      by_cases hPa : isP a = true
      · rw [if_pos hPa] at h
        simp only [List.head?_cons, Option.some.injEq] at h
        subst h; simpa using hwa
      · rw [if_neg hPa, if_pos rfl] at h
        simp only [List.nil_append, List.head?_cons, Option.some.injEq] at h
        subst h; simpa using hwa

theorem punctGo_noClassWs (isP : Char → Bool) (hd : ∀ c, isP c = true → isWs c = false) :
    ∀ (aP : Bool) (buf s : List Char), (∀ x ∈ buf, isWs x = true) →
      noClassWs isP (punctGo isP aP buf s) := by
  refine punctGo.induct isP
    (fun aP buf s => (∀ x ∈ buf, isWs x = true) → noClassWs isP (punctGo isP aP buf s))
    ?_ ?_ ?_ ?_ ?_
  · intro buf hbuf
    rw [punctGo, if_pos rfl]; exact List.chain'_nil
  · intro aP buf haP hbuf
    rw [punctGo, if_neg haP]; exact allWs_noClassWs isP hd buf hbuf
  · intro aP buf c rest hwc ih hbuf
    rw [punctGo, if_pos hwc]
    refine ih ?_
    intro x hx
    rcases List.mem_append.mp hx with h | h
    · exact hbuf x h
    · have hxc : x = c := by simpa using h
      subst hxc; exact hwc
  · intro aP buf c rest hwc hPc ih hbuf
    rw [punctGo, if_neg hwc, if_pos hPc]
    refine List.chain'_cons'.mpr ⟨?_, ih (by intro x hx; cases hx)⟩
    intro y hy
    have hwy : isWs y = false := by
      cases hh : (punctGo isP true [] rest).head? with
      | none => rw [hh] at hy; cases hy
      | some d =>
        rw [hh] at hy
        have hyd : d = y := by simpa using hy
        rw [← hyd]
        exact punctGo_true_head isP hd rest [] d hh
    constructor
    · rintro ⟨hwc', _⟩; rw [hd c hPc] at hwc'; cases hwc'
    · rintro ⟨_, hwy'⟩; rw [hwy] at hwy'; cases hwy'
  · intro aP buf c rest hwc hPc ih hbuf
    rw [punctGo, if_neg hwc, if_neg hPc]
    refine List.chain'_append.mpr ⟨?_, ?_, ?_⟩
    · cases aP with
      | true => rw [if_pos rfl]; exact List.chain'_nil
      | false => rw [if_neg (by decide)]; exact allWs_noClassWs isP hd buf hbuf
    · refine List.chain'_cons'.mpr ⟨?_, ih (by intro x hx; cases hx)⟩
      intro y hy
      constructor
      · rintro ⟨hwc', _⟩; exact hwc hwc'
      · rintro ⟨hPc', _⟩; exact hPc hPc'
    · intro x hx y hy
      have hyc : c = y := by simpa using hy
      subst hyc
      have hxb : x ∈ buf := by
        cases aP with
        | true => rw [if_pos rfl] at hx; cases hx
        | false => rw [if_neg (by decide)] at hx; exact List.mem_of_mem_getLast? hx
      have hwx := hbuf x hxb
      constructor
      · rintro ⟨_, hPc'⟩; exact hPc hPc'
      · rintro ⟨hPx, _⟩; rw [hd x hPx] at hwx; cases hwx

theorem punctGo_wsSingle (isP : Char → Bool) :
    ∀ (aP : Bool) (buf s : List Char), wsSingle buf → wsSingle s →
      wsSingle (punctGo isP aP buf s) := by
  refine punctGo.induct isP
    (fun aP buf s => wsSingle buf → wsSingle s → wsSingle (punctGo isP aP buf s))
    ?_ ?_ ?_ ?_ ?_
  · intro buf hbuf hs c hc
    rw [punctGo, if_pos rfl] at hc; cases hc
  · intro aP buf haP hbuf hs c hc
    rw [punctGo, if_neg haP] at hc; exact hbuf c hc
  · intro aP buf c rest hwc ih hbuf hs x hx
    rw [punctGo, if_pos hwc] at hx
    refine ih ?_ ?_ x hx
    · intro z hz
      rcases List.mem_append.mp hz with h | h
      · exact hbuf z h
      · have hzc : z = c := by simpa using h
        subst hzc; exact hs z (List.mem_cons_self _ _)
    · intro z hz; exact hs z (List.mem_cons_of_mem c hz)
  · intro aP buf c rest hwc hPc ih hbuf hs x hx
    rw [punctGo, if_neg hwc, if_pos hPc] at hx
    rcases List.mem_cons.mp hx with h | h
    · subst h; exact hs x (List.mem_cons_self _ _)
    · exact ih (by intro z hz; cases hz) (fun z hz => hs z (List.mem_cons_of_mem c hz)) x h
  · intro aP buf c rest hwc hPc ih hbuf hs x hx
    rw [punctGo, if_neg hwc, if_neg hPc] at hx
    rcases List.mem_append.mp hx with h | h
    · have hxb : x ∈ buf := by
        cases aP with
        | true => rw [if_pos rfl] at h; cases h
        | false => rw [if_neg (by decide)] at h; exact h
      exact hbuf x hxb
    · rcases List.mem_cons.mp h with h' | h'
      · subst h'; exact hs x (List.mem_cons_self _ _)
      · exact ih (by intro z hz; cases hz) (fun z hz => hs z (List.mem_cons_of_mem c hz)) x h'

theorem punctGo_noDouble (isP : Char → Bool) (hd : ∀ c, isP c = true → isWs c = false) :
    ∀ (aP : Bool) (buf s : List Char), noDoubleWs (buf ++ s) →
      noDoubleWs (punctGo isP aP buf s) := by
  refine punctGo.induct isP
    (fun aP buf s => noDoubleWs (buf ++ s) → noDoubleWs (punctGo isP aP buf s))
    ?_ ?_ ?_ ?_ ?_
  · intro buf h
    rw [punctGo, if_pos rfl]; exact List.chain'_nil
  · intro aP buf haP h
    rw [punctGo, if_neg haP]
    exact (List.chain'_append.mp h).1
  · intro aP buf c rest hwc ih h
    rw [punctGo, if_pos hwc]
    refine ih ?_
    rw [List.append_assoc]
    exact h
  · intro aP buf c rest hwc hPc ih h
    rw [punctGo, if_neg hwc, if_pos hPc]
    refine List.chain'_cons'.mpr ⟨?_, ih ?_⟩
    · rintro y hy ⟨hwc', _⟩
      rw [hd c hPc] at hwc'; cases hwc'
    · exact (List.chain'_cons'.mp (List.chain'_append.mp h).2.1).2
  · intro aP buf c rest hwc hPc ih h
    rw [punctGo, if_neg hwc, if_neg hPc]
    refine List.chain'_append.mpr ⟨?_, ?_, ?_⟩
    · cases aP with
      | true => rw [if_pos rfl]; exact List.chain'_nil
      | false => rw [if_neg (by decide)]; exact (List.chain'_append.mp h).1
    · refine List.chain'_cons'.mpr ⟨?_, ih ?_⟩
      · rintro y hy ⟨hwc', _⟩; exact hwc hwc'
      · exact (List.chain'_cons'.mp (List.chain'_append.mp h).2.1).2
    · rintro x hx y hy ⟨_, hwy⟩
      have hyc : c = y := by simpa using hy
      subst hyc
      exact hwc hwy

theorem punctGo_id (isP : Char → Bool) (_hd : ∀ c, isP c = true → isWs c = false) :
    ∀ (aP : Bool) (buf s : List Char), (∀ x ∈ buf, isWs x = true) →
      noClassWs isP (buf ++ s) →
      (aP = true → buf = [] ∧ ∀ c, s.head? = some c → isWs c = false) →
      punctGo isP aP buf s = buf ++ s := by
  refine punctGo.induct isP
    (fun aP buf s => (∀ x ∈ buf, isWs x = true) → noClassWs isP (buf ++ s) →
      (aP = true → buf = [] ∧ ∀ c, s.head? = some c → isWs c = false) →
      punctGo isP aP buf s = buf ++ s)
    ?_ ?_ ?_ ?_ ?_
  · intro buf hbuf hnc haP
    rw [punctGo, if_pos rfl, (haP rfl).1]
    rfl
  · intro aP buf haP hbuf hnc _
    rw [punctGo, if_neg haP, List.append_nil]
  · intro aP buf c rest hwc ih hbuf hnc haP
    have haPf : aP = false := by
      cases aP with
      | false => rfl
      | true =>
        have h0 := (haP rfl).2 c rfl
        rw [hwc] at h0; cases h0
    subst haPf
    rw [punctGo, if_pos hwc]
    have hbuf' : ∀ x ∈ buf ++ [c], isWs x = true := by
      intro x hx
      rcases List.mem_append.mp hx with h | h
      · exact hbuf x h
      · have hxc : x = c := by simpa using h
        subst hxc; exact hwc
    have hnc' : noClassWs isP ((buf ++ [c]) ++ rest) := by
      rw [List.append_assoc]
      exact hnc
    rw [ih hbuf' hnc' (by intro h0; cases h0)]
    rw [List.append_assoc]
    rfl
  · intro aP buf c rest hwc hPc ih hbuf hnc haP
    have hbe : buf = [] := by
      rcases List.eq_nil_or_concat buf with h | ⟨L, b, h⟩
      · exact h
      · exfalso
        subst h
        have hwb : isWs b = true := hbuf b (by simp [List.concat_eq_append])
        have hsplit : noClassWs isP ((L ++ [b]) ++ c :: rest) := by
          rw [← List.concat_eq_append]
          exact hnc
        have hb : b ∈ (L ++ [b]).getLast? := by
          rw [List.getLast?_concat]; rfl
        have hrel := (List.chain'_append.mp hsplit).2.2 b hb c rfl
        exact hrel.1 ⟨hwb, hPc⟩
    subst hbe
    rw [punctGo, if_neg hwc, if_pos hPc]
    have htail : noClassWs isP ([] ++ rest) := (List.chain'_cons'.mp hnc).2
    rw [ih (by intro x hx; cases hx) htail ?_]
    · rfl
    · intro _
      refine ⟨rfl, ?_⟩
      intro d hdd
      have hrel := (List.chain'_cons'.mp hnc).1 d hdd
      by_contra hcon
      exact hrel.2 ⟨hPc, by simpa using hcon⟩
  · intro aP buf c rest hwc hPc ih hbuf hnc haP
    rw [punctGo, if_neg hwc, if_neg hPc]
    cases aP with
    | true =>
      have hbe := (haP rfl).1
      subst hbe
      rw [if_pos rfl]
      have htail : noClassWs isP ([] ++ rest) := (List.chain'_cons'.mp hnc).2
      rw [ih (by intro x hx; cases hx) htail (by intro h0; cases h0)]
      rfl
    | false =>
      rw [if_neg (by decide)]
      have htail : noClassWs isP ([] ++ rest) :=
        (List.chain'_cons'.mp (List.chain'_append.mp hnc).2.1).2
      rw [ih (by intro x hx; cases hx) htail (by intro h0; cases h0)]
      rfl

/-! #### The `;}` replacement preserves the normal forms -/

theorem bool_not_true {b : Bool} (h : ¬ b = true) : b = false := by
  cases b
  · rfl
  · exact absurd rfl h

theorem rep_cons_match (r : List Char) :
    repGo semiBrace closeBrace 0 (';' :: '\x7d' :: r)
      = '\x7d' :: repGo semiBrace closeBrace 0 r := by
  have hpre : semiBrace.isPrefixOf (';' :: '\x7d' :: r) = true := by
    simp [semiBrace, List.isPrefixOf]
  rw [repGo, if_pos hpre]
  rfl

theorem rep_cons_nomatch {c : Char} {rest : List Char}
    (h : semiBrace.isPrefixOf (c :: rest) = false) :
    repGo semiBrace closeBrace 0 (c :: rest)
      = c :: repGo semiBrace closeBrace 0 rest := by
  rw [repGo, if_neg (by intro hx; rw [h] at hx; cases hx)]

theorem semiBrace_prefix_destruct {c : Char} {rest : List Char}
    (h : semiBrace.isPrefixOf (c :: rest) = true) :
    c = ';' ∧ ∃ r, rest = '\x7d' :: r := by
  obtain ⟨u, hu⟩ := isPrefixOfIff.mp h
  injection hu with h1 h2
  exact ⟨h1.symm, u, h2.symm⟩

theorem rep_head (s : List Char) :
    ∀ c, (repGo semiBrace closeBrace 0 s).head? = some c →
      s.head? = some c ∨ (c = '\x7d' ∧ s.head? = some ';') := by
  cases s with
  | nil => intro c h; cases h
  | cons a rest =>
    intro c h
    by_cases hm : semiBrace.isPrefixOf (a :: rest) = true
    · obtain ⟨ha, r, hr⟩ := semiBrace_prefix_destruct hm
      subst ha; subst hr
      rw [rep_cons_match] at h
      simp only [List.head?_cons, Option.some.injEq] at h
      subst h
      exact Or.inr ⟨rfl, rfl⟩
    · rw [rep_cons_nomatch (bool_not_true hm)] at h
      simp only [List.head?_cons, Option.some.injEq] at h
      subst h
      exact Or.inl rfl

theorem rep_noClassWs (n : Nat) : ∀ s : List Char, s.length ≤ n →
    noClassWs isPunctCss s → noClassWs isPunctCss (repGo semiBrace closeBrace 0 s) := by
  induction n with
  | zero =>
    intro s hl h
    have hs : s = [] := List.eq_nil_of_length_eq_zero (by omega)
    subst hs; exact List.chain'_nil
  | succ n ih =>
    intro s hl h
    cases s with
    | nil => exact List.chain'_nil
    | cons a rest =>
      by_cases hm : semiBrace.isPrefixOf (a :: rest) = true
      · obtain ⟨ha, r, hr⟩ := semiBrace_prefix_destruct hm
        subst ha; subst hr
        rw [rep_cons_match]
        refine List.chain'_cons'.mpr
          ⟨?_, ih r (by simp at hl; omega) ((List.chain'_cons'.mp (List.chain'_cons'.mp h).2).2)⟩
        intro y hy
        cases hh : (repGo semiBrace closeBrace 0 r).head? with
        | none => rw [hh] at hy; cases hy
        | some d =>
          rw [hh] at hy
          have hdy : d = y := by simpa using hy
          subst hdy
          rcases rep_head r d hh with h1 | ⟨h1, _⟩
          · have hrel := (List.chain'_cons'.mp (List.chain'_cons'.mp h).2).1 d h1
            constructor
            · rintro ⟨hws', _⟩; exact absurd hws' (by decide)
            · rintro ⟨_, hwy⟩; exact hrel.2 ⟨by decide, hwy⟩
          · subst h1
            constructor
            · rintro ⟨hws', _⟩; exact absurd hws' (by decide)
            · rintro ⟨_, hwy⟩; exact absurd hwy (by decide)
      · rw [rep_cons_nomatch (bool_not_true hm)]
        refine List.chain'_cons'.mpr
          ⟨?_, ih rest (by simp at hl; omega) ((List.chain'_cons'.mp h).2)⟩
        intro y hy
        cases hh : (repGo semiBrace closeBrace 0 rest).head? with
        | none => rw [hh] at hy; cases hy
        | some d =>
          rw [hh] at hy
          have hdy : d = y := by simpa using hy
          subst hdy
          rcases rep_head rest d hh with h1 | ⟨h1, h2⟩
          · exact (List.chain'_cons'.mp h).1 d h1
          · subst h1
            have hrel := (List.chain'_cons'.mp h).1 ';' h2
            constructor
            · rintro ⟨hwa, _⟩; exact hrel.1 ⟨hwa, by decide⟩
            · rintro ⟨_, hwy⟩; exact absurd hwy (by decide)

theorem rep_noDouble (n : Nat) : ∀ s : List Char, s.length ≤ n →
    noDoubleWs s → noDoubleWs (repGo semiBrace closeBrace 0 s) := by
  induction n with
  | zero =>
    intro s hl h
    have hs : s = [] := List.eq_nil_of_length_eq_zero (by omega)
    subst hs; exact List.chain'_nil
  | succ n ih =>
    intro s hl h
    cases s with
    | nil => exact List.chain'_nil
    | cons a rest =>
      by_cases hm : semiBrace.isPrefixOf (a :: rest) = true
      · obtain ⟨ha, r, hr⟩ := semiBrace_prefix_destruct hm
        subst ha; subst hr
        rw [rep_cons_match]
        refine List.chain'_cons'.mpr
          ⟨?_, ih r (by simp at hl; omega) ((List.chain'_cons'.mp (List.chain'_cons'.mp h).2).2)⟩
        rintro y hy ⟨hws', _⟩
        exact absurd hws' (by decide)
      · rw [rep_cons_nomatch (bool_not_true hm)]
        refine List.chain'_cons'.mpr
          ⟨?_, ih rest (by simp at hl; omega) ((List.chain'_cons'.mp h).2)⟩
        intro y hy
        cases hh : (repGo semiBrace closeBrace 0 rest).head? with
        | none => rw [hh] at hy; cases hy
        | some d =>
          rw [hh] at hy
          have hdy : d = y := by simpa using hy
          subst hdy
          rcases rep_head rest d hh with h1 | ⟨h1, _⟩
          · exact (List.chain'_cons'.mp h).1 d h1
          · subst h1
            rintro ⟨_, hwy⟩
            exact absurd hwy (by decide)

theorem rep_wsSingle (n : Nat) : ∀ s : List Char, s.length ≤ n →
    wsSingle s → wsSingle (repGo semiBrace closeBrace 0 s) := by
  induction n with
  | zero =>
    intro s hl h
    have hs : s = [] := List.eq_nil_of_length_eq_zero (by omega)
    subst hs; intro c hc; cases hc
  | succ n ih =>
    intro s hl h
    cases s with
    | nil => intro c hc; cases hc
    | cons a rest =>
      by_cases hm : semiBrace.isPrefixOf (a :: rest) = true
      · obtain ⟨ha, r, hr⟩ := semiBrace_prefix_destruct hm
        subst ha; subst hr
        rw [rep_cons_match]
        intro x hx hwx
        rcases List.mem_cons.mp hx with h0 | h0
        · subst h0; exact absurd hwx (by decide)
        · exact ih r (by simp at hl; omega)
            (fun z hz => h z (List.mem_cons_of_mem _ (List.mem_cons_of_mem _ hz))) x h0 hwx
      · rw [rep_cons_nomatch (bool_not_true hm)]
        intro x hx hwx
        rcases List.mem_cons.mp hx with h0 | h0
        · subst h0; exact h x (List.mem_cons_self _ _) hwx
        · exact ih rest (by simp at hl; omega)
            (fun z hz => h z (List.mem_cons_of_mem _ hz)) x h0 hwx

/-! #### `strip` is idempotent and preserves the normal forms -/

theorem dropWhile_head_not (p : Char → Bool) :
    ∀ (l : List Char) (c : Char) (t : List Char), l.dropWhile p = c :: t → p c = false := by
  intro l
  induction l with
  | nil => intro c t h; cases h
  | cons a l' ih =>
    intro c t h
    rw [List.dropWhile_cons] at h
    by_cases hp : p a = true
    · rw [if_pos hp] at h; exact ih c t h
    · rw [if_neg hp] at h
      injection h with h1 _
      subst h1; simpa using hp

theorem dropWhile_idem (p : Char → Bool) (l : List Char) :
    (l.dropWhile p).dropWhile p = l.dropWhile p := by
  cases h : l.dropWhile p with
  | nil => rfl
  | cons c t =>
    rw [List.dropWhile_cons,
      if_neg (by intro hp; rw [dropWhile_head_not p l c t h] at hp; cases hp)]

theorem pyStrip_idem (s : List Char) : pyStrip (pyStrip s) = pyStrip s := by
  unfold pyStrip
  generalize hu : s.dropWhile isWs = u
  generalize hv : u.reverse.dropWhile isWs = v
  have h1 : v.reverse.dropWhile isWs = v.reverse := by
    cases hvr : v.reverse with
    | nil => rfl
    | cons c w =>
      rw [List.dropWhile_cons, if_neg ?_]
      have hvp : v.reverse <+: u := by
        have hsuf : v <:+ u.reverse := hv ▸ List.dropWhile_suffix isWs
        have h2 := List.reverse_prefix.mpr hsuf
        rwa [List.reverse_reverse] at h2
      obtain ⟨tail, htail⟩ := hvp
      rw [hvr] at htail
      intro hc
      have hcf : isWs c = false := by
        refine dropWhile_head_not isWs s c (w ++ tail) ?_
        rw [hu, ← htail]
        rfl
      rw [hcf] at hc; cases hc
  rw [h1, List.reverse_reverse, ← hv, dropWhile_idem]

theorem wsSingle_pyStrip {s : List Char} (h : wsSingle s) : wsSingle (pyStrip s) := by
  intro c hc hw
  refine h c ?_ hw
  unfold pyStrip at hc
  rw [List.mem_reverse] at hc
  have hc2 := (List.dropWhile_suffix isWs).subset hc
  rw [List.mem_reverse] at hc2
  exact (List.dropWhile_suffix isWs).subset hc2

theorem chain'_pyStrip {R : Char → Char → Prop} (hsym : ∀ a b, R a b → R b a)
    {s : List Char} (h : List.Chain' R s) : List.Chain' R (pyStrip s) :=
  chain'_reverse_of_symm hsym
    (chain'_of_suffix
      (chain'_reverse_of_symm hsym (chain'_of_suffix h (List.dropWhile_suffix isWs)))
      (List.dropWhile_suffix isWs))

/-- Claim C3 (amended): `minify_css` is idempotent on every input `x` whose
minified form is a fixed point of comment removal (no complete `/*...*/` left)
and of the `;}` replacement (no `;}` left).  The remaining passes — whitespace
collapse, punctuation-adjacent whitespace removal and `strip` — are always the
identity on `minify_css` output, which is what this theorem proves. -/
theorem c3_idempotence_amended (x : List Char)
    (h1 : removeComments (minify_css x) = minify_css x)
    (h2 : replaceAll semiBrace closeBrace (minify_css x) = minify_css x) :
    minify_css (minify_css x) = minify_css x := by
  have hdisj := punctCss_not_ws
  have hws2 : wsSingle (collapseWs (removeComments x)) :=
    collapseWsGo_wsSingle (removeComments x) false
  have hnd2 : noDoubleWs (collapseWs (removeComments x)) :=
    collapseWsGo_noDouble (removeComments x) false
  have hws3 : wsSingle (punctStripWith isPunctCss (collapseWs (removeComments x))) :=
    punctGo_wsSingle isPunctCss false [] (collapseWs (removeComments x))
      (by intro c hc; cases hc) hws2
  have hnd3 : noDoubleWs (punctStripWith isPunctCss (collapseWs (removeComments x))) :=
    punctGo_noDouble isPunctCss hdisj false [] (collapseWs (removeComments x)) hnd2
  have hnc3 : noClassWs isPunctCss (punctStripWith isPunctCss (collapseWs (removeComments x))) :=
    punctGo_noClassWs isPunctCss hdisj false [] (collapseWs (removeComments x))
      (by intro c hc; cases hc)
  have hws4 : wsSingle (replaceAll semiBrace closeBrace
      (punctStripWith isPunctCss (collapseWs (removeComments x)))) :=
    rep_wsSingle _ _ (Nat.le_refl _) hws3
  have hnd4 : noDoubleWs (replaceAll semiBrace closeBrace
      (punctStripWith isPunctCss (collapseWs (removeComments x)))) :=
    rep_noDouble _ _ (Nat.le_refl _) hnd3
  have hnc4 : noClassWs isPunctCss (replaceAll semiBrace closeBrace
      (punctStripWith isPunctCss (collapseWs (removeComments x)))) :=
    rep_noClassWs _ _ (Nat.le_refl _) hnc3
  have hwsy : wsSingle (minify_css x) := wsSingle_pyStrip hws4
  have hndy : noDoubleWs (minify_css x) :=
    chain'_pyStrip (fun a b h ⟨p, q⟩ => h ⟨q, p⟩) hnd4
  have hncy : noClassWs isPunctCss (minify_css x) :=
    chain'_pyStrip (fun a b h => ⟨fun ⟨p, q⟩ => h.2 ⟨q, p⟩, fun ⟨p, q⟩ => h.1 ⟨q, p⟩⟩) hnc4
  have hcoll : collapseWs (minify_css x) = minify_css x :=
    collapseWsGo_id (minify_css x) false hwsy hndy (by intro h0; cases h0)
  have hpunct : punctStripWith isPunctCss (minify_css x) = minify_css x :=
    punctGo_id isPunctCss hdisj false [] (minify_css x)
      (by intro z hz; cases hz) hncy (by intro h0; cases h0)
  have hstrip : pyStrip (minify_css x) = minify_css x := pyStrip_idem _
  show pyStrip (replaceAll semiBrace closeBrace (punctStripWith isPunctCss
    (collapseWs (removeComments (minify_css x))))) = minify_css x
  rw [h1, hcoll, hpunct, h2, hstrip]

/-- Witness for C3's amended theorem on scenario C from the spec. -/
theorem c3_idempotence_amended_witness :
    removeComments (minify_css ("  .a  \x7b  color : red ;  \x7d  ".toList))
      = minify_css ("  .a  \x7b  color : red ;  \x7d  ".toList) ∧
    replaceAll semiBrace closeBrace (minify_css ("  .a  \x7b  color : red ;  \x7d  ".toList))
      = minify_css ("  .a  \x7b  color : red ;  \x7d  ".toList) ∧
    minify_css (minify_css ("  .a  \x7b  color : red ;  \x7d  ".toList))
      = minify_css ("  .a  \x7b  color : red ;  \x7d  ".toList) :=
  ⟨by decide, by decide,
   c3_idempotence_amended ("  .a  \x7b  color : red ;  \x7d  ".toList) (by decide) (by decide)⟩

/-! ### C4: dedup uniqueness -/

theorem dedupeLoop_nodup : ∀ (rs seen : List (List Char)),
    ((dedupeLoop seen rs).map normSig).Nodup ∧
    ∀ t ∈ (dedupeLoop seen rs).map normSig, t ∉ seen := by
  intro rs
  induction rs with
  | nil => intro seen; exact ⟨List.nodup_nil, by intro t ht; cases ht⟩
  | cons r rs ih =>
    intro seen
    rw [dedupeLoop]
    by_cases hmem : normSig r ∈ seen
    · rw [if_pos hmem]; exact ih seen
    · rw [if_neg hmem]
      constructor
      · rw [List.map_cons]
        refine List.nodup_cons.mpr ⟨?_, (ih (normSig r :: seen)).1⟩
        intro hin
        exact (ih (normSig r :: seen)).2 (normSig r) hin (List.mem_cons_self _ _)
      · intro t ht
        rw [List.map_cons] at ht
        rcases List.mem_cons.mp ht with h | h
        · subst h; exact hmem
        · intro hts
          exact (ih (normSig r :: seen)).2 t h (List.mem_cons_of_mem _ hts)

theorem dedupeLoop_subset : ∀ (rs seen : List (List Char)),
    ∀ r ∈ dedupeLoop seen rs, r ∈ rs := by
  intro rs
  induction rs with
  | nil => intro seen r hr; cases hr
  | cons a rs ih =>
    intro seen r hr
    rw [dedupeLoop] at hr
    by_cases hmem : normSig a ∈ seen
    · rw [if_pos hmem] at hr
      exact List.mem_cons_of_mem _ (ih seen r hr)
    · rw [if_neg hmem] at hr
      rcases List.mem_cons.mp hr with h | h
      · subst h; exact List.mem_cons_self _ _
      · exact List.mem_cons_of_mem _ (ih (normSig a :: seen) r h)

/-- Claim C4: dedup uniqueness.  For every ordered sequence of
`(name, stylesheetPayload)` blocks, no two rules of the resulting
MasterStylesheet share a normalized signature, and every kept rule is one of
the original (non-normalized) candidate rules of the sorted blocks. -/
theorem c4_dedup_uniqueness (blocks : List (String × List Char)) :
    ((master_blocks blocks).map normSig).Nodup ∧
    ∀ r ∈ master_blocks blocks, r ∈ (pySortBlocks blocks).flatMap (fun b => rulesOf b.2) :=
  ⟨(dedupeLoop_nodup _ []).1, dedupeLoop_subset _ []⟩

/-! ### C5: the stable priority sort -/

theorem idxIn_lt : ∀ (ps : List String) (n : String) (i : Nat),
    idxIn ps n = some i → i < ps.length := by
  intro ps
  induction ps with
  | nil => intro n i h; cases h
  | cons p ps ih =>
    intro n i h
    rw [idxIn] at h
    by_cases hn : n = p
    · rw [if_pos hn] at h
      cases h
      simp
    · rw [if_neg hn] at h
      cases hk : idxIn ps n with
      | none => rw [hk] at h; cases h
      | some k =>
        rw [hk] at h
        simp only [Option.map_some'] at h
        cases h
        have := ih n k hk
        simp only [List.length_cons]
        omega

theorem sort_key_cases (b : String × List Char) :
    sort_key b = 0 ∨ sort_key b = 1 ∨ sort_key b = 2 ∨ sort_key b = 3 ∨
    sort_key b = 4 ∨ sort_key b = 999 := by
  unfold sort_key
  cases h : idxIn priority_pages b.1 with
  | none => simp
  | some i =>
    have hlt : i < 5 := idxIn_lt priority_pages b.1 i h
    interval_cases i <;> simp

theorem insB_all_lt (x : String × List Char) :
    ∀ (L M : List (String × List Char)), (∀ y ∈ L, sort_key y < sort_key x) →
      insB x (L ++ M) = L ++ insB x M := by
  intro L
  induction L with
  | nil => intro M _; rfl
  | cons y L ih =>
    intro M h
    rw [List.cons_append, insB, if_pos (h y (List.mem_cons_self _ _))]
    rw [ih M (fun z hz => h z (List.mem_cons_of_mem _ hz))]
    rfl

theorem insB_all_ge (x : String × List Char) :
    ∀ M : List (String × List Char), (∀ y ∈ M, sort_key x ≤ sort_key y) →
      insB x M = x :: M := by
  intro M h
  cases M with
  | nil => rfl
  | cons y ys =>
    rw [insB, if_neg (by have := h y (List.mem_cons_self _ _); omega)]

theorem filter_key_cons_ne (b : String × List Char) (l : List (String × List Char))
    (w : Nat) (h : sort_key b ≠ w) :
    (b :: l).filter (fun y => sort_key y == w) = l.filter (fun y => sort_key y == w) := by
  rw [List.filter_cons, if_neg (by simpa using h)]

theorem flatMap_filters_ne (b : String × List Char) (l : List (String × List Char))
    (ws : List Nat) (h : ∀ w ∈ ws, sort_key b ≠ w) :
    ws.flatMap (fun w => (b :: l).filter (fun y => sort_key y == w))
      = ws.flatMap (fun w => l.filter (fun y => sort_key y == w)) := by
  induction ws with
  | nil => rfl
  | cons w ws ih =>
    rw [List.flatMap_cons, List.flatMap_cons,
      filter_key_cons_ne b l w (h w (List.mem_cons_self _ _)),
      ih (fun z hz => h z (List.mem_cons_of_mem _ hz))]

theorem sortSpec_insert (b : String × List Char) (l : List (String × List Char))
    (lows highs : List Nat) (v : Nat)
    (hsplit : ([0, 1, 2, 3, 4, 999] : List Nat) = lows ++ v :: highs)
    (hk : sort_key b = v)
    (hlow : ∀ w ∈ lows, w < v)
    (hhigh : ∀ w ∈ highs, v < w) :
    insB b (sortSpec l) = sortSpec (b :: l) := by
  unfold sortSpec
  rw [hsplit, List.flatMap_append, List.flatMap_cons,
    List.flatMap_append, List.flatMap_cons]
  rw [insB_all_lt b _ _ ?_]
  · rw [insB_all_ge b _ ?_]
    · rw [flatMap_filters_ne b l lows (fun w hw => by have := hlow w hw; omega)]
      rw [flatMap_filters_ne b l highs (fun w hw => by have := hhigh w hw; omega)]
      rw [List.filter_cons, if_pos (by simpa using hk)]
      rfl
    · intro y hy
      rcases List.mem_append.mp hy with h | h
      · have : sort_key y = v := by
          have := (List.mem_filter.mp h).2
          simpa using this
        omega
      · obtain ⟨w, hw, hyw⟩ := List.mem_flatMap.mp h
        have : sort_key y = w := by
          have := (List.mem_filter.mp hyw).2
          simpa using this
        have := hhigh w hw
        omega
  · intro y hy
    obtain ⟨w, hw, hyw⟩ := List.mem_flatMap.mp hy
    have : sort_key y = w := by
      have := (List.mem_filter.mp hyw).2
      simpa using this
    have := hlow w hw
    omega

/-- Claim C5: dedup priority ordering.  The stable sort of
`extract_css.py` arranges the blocks as: blocks named `CLIENT_CONSOLE` first,
then `DASHBOARD`, `CONTACTS_MANAGER`, `SERVER_SETTINGS`, `HISTORICAL_DATA`
(each group in input order), and finally every block whose name is not in the
priority list, in input order. -/
theorem c5_priority_sort (l : List (String × List Char)) :
    pySortBlocks l = sortSpec l := by
  induction l with
  | nil => rfl
  | cons b l ih =>
    show insB b (pySortBlocks l) = sortSpec (b :: l)
    rw [ih]
    rcases sort_key_cases b with hk | hk | hk | hk | hk | hk
    · exact sortSpec_insert b l [] [1, 2, 3, 4, 999] 0 rfl hk
        (by intro w hw; cases hw) (by decide)
    · exact sortSpec_insert b l [0] [2, 3, 4, 999] 1 rfl hk (by decide) (by decide)
    · exact sortSpec_insert b l [0, 1] [3, 4, 999] 2 rfl hk (by decide) (by decide)
    · exact sortSpec_insert b l [0, 1, 2] [4, 999] 3 rfl hk (by decide) (by decide)
    · exact sortSpec_insert b l [0, 1, 2, 3] [999] 4 rfl hk (by decide) (by decide)
    · exact sortSpec_insert b l [0, 1, 2, 3, 4] [] 999 rfl hk (by decide)
        (by intro w hw; cases hw)

theorem startMarker_noBorder : noBorderP startMarker := by decide

theorem serialMarker_noBorder : noBorderP serialMarker := by decide

theorem pre_take {p l : List Char} {n : Nat} (h : p <+: l) (hn : p.length ≤ n) :
    p <+: l.take n := by
  obtain ⟨r, hr⟩ := h
  subst hr
  rw [List.take_append_eq_append_take, List.take_of_length_le hn]
  exact pre_of_append _ _

theorem pre_extend {p l r : List Char} (h : p <+: l) : p <+: l ++ r :=
  h.trans (pre_of_append l r)

theorem pre_cong_left {l p q : List Char} (h : p <+: q) : l ++ p <+: l ++ q := by
  obtain ⟨r, hr⟩ := h
  exact ⟨r, by rw [List.append_assoc, hr]⟩

/-- A match of `p` starting inside `X` but overrunning its end, in `X ++ Y`
where `Y` itself starts with `p`, would give `p` a proper border. -/
theorem no_straddle {p X Y : List Char} (hnb : noBorderP p) (hpY : p <+: Y)
    {q : Nat} (hq : q < X.length) (hlen : X.length - q < p.length)
    (hmatch : p <+: (X ++ Y).drop q) : False := by
  have hlx : (X.drop q).length = X.length - q := by
    rw [List.length_drop]
  rw [List.drop_append_eq_append_drop, show q - X.length = 0 by omega,
    List.drop_zero] at hmatch
  obtain ⟨r, hr⟩ := hmatch
  have hYdecomp : p.drop (X.length - q) ++ r = Y := by
    have h1 : (p ++ r).drop (X.length - q) = p.drop (X.length - q) ++ r := by
      rw [List.drop_append_eq_append_drop, show X.length - q - p.length = 0 by omega,
        List.drop_zero]
    have h2 : (X.drop q ++ Y).drop (X.length - q) = Y := by
      rw [← hlx, List.drop_left]
    rw [hr, h2] at h1
    exact h1.symm
  have hsub : p.drop (X.length - q) <+: p :=
    List.prefix_of_prefix_length_le ⟨r, hYdecomp⟩ hpY (by rw [List.length_drop]; omega)
  have heq := List.prefix_iff_eq_take.mp hsub
  rw [List.length_drop] at heq
  exact hnb (X.length - q) (List.mem_range.mpr (by omega)) (by omega) heq

theorem joinSep_cons_decomp (sep x : List Char) (rest : List (List Char)) :
    ∃ z, joinSep sep (x :: rest) = x ++ z := by
  cases rest with
  | nil => exact ⟨[], (List.append_nil x).symm⟩
  | cons y ys =>
    refine ⟨sep ++ joinSep sep (y :: ys), ?_⟩
    rw [joinSep, List.append_assoc]

/-- When the payload starts with `<!DOCTYPE html>`, the rebuilt declaration
starts with the start marker. -/
theorem startMarker_pre_newVal {P : List Char} (hP : dokPrefix.isPrefixOf P = true) :
    startMarker <+: declPrefix ++ newCppVal P := by
  have hPdok : dokPrefix <+: P := isPrefixOfIff.mp hP
  have hchunks : ∃ cs, pyChunks P = P.take 8000 :: cs := by
    cases hP0 : P with
    | nil =>
      exfalso
      rw [hP0] at hPdok
      exact absurd (List.prefix_nil.mp hPdok) (by decide)
    | cons c t =>
      refine ⟨chunkGo t.length ((c :: t).drop 8000), ?_⟩
      show chunkGo (c :: t).length (c :: t) = _
      rw [List.length_cons, chunkGo]
  obtain ⟨cs, hcs⟩ := hchunks
  have hdok8000 : dokPrefix <+: P.take 8000 := pre_take hPdok (by decide)
  have hx : startMarker = declPrefix ++ (wrapPre ++ dokPrefix) := by decide
  rw [hx]
  apply pre_cong_left
  unfold newCppVal
  rw [hcs, List.map_cons]
  obtain ⟨z, hz⟩ :=
    joinSep_cons_decomp [' '] (wrapPre ++ P.take 8000 ++ wrapSuf)
      (cs.map (fun c => wrapPre ++ c ++ wrapSuf))
  rw [hz]
  have hbig : wrapPre ++ dokPrefix <+:
      wrapPre ++ (P.take 8000 ++ (wrapSuf ++ (z ++ [';']))) :=
    pre_cong_left (pre_extend hdok8000)
  simpa [List.append_assoc] using hbig

/-- Claim C6 (amended): injecting the same payload twice equals injecting it
once, provided the payload begins with `<!DOCTYPE html>` (so the rebuilt
declaration reproduces the start marker) and the end marker does not occur
inside the rebuilt declaration text. -/
theorem c6_injection_idempotent_amended (t P : List Char) (i j : Nat)
    (hs : firstIdx startMarker t = some i)
    (he : findFrom serialMarker t i = some j)
    (hP : dokPrefix.isPrefixOf P = true)
    (hn : firstIdx serialMarker (declPrefix ++ newCppVal P ++ nl2) = none) :
    ((updateHtml t P).toOption.bind fun u => (updateHtml u P).toOption)
      = (updateHtml t P).toOption := by
  have hm_pre : startMarker <+: declPrefix ++ newCppVal P := startMarker_pre_newVal hP
  have hi_lt : i < t.length := by
    have hpre := firstIdx_found hs
    by_contra hcon
    push_neg at hcon
    rw [List.drop_eq_nil_of_le hcon] at hpre
    exact absurd (List.prefix_nil.mp hpre) (by decide)
  have hA_len : (t.take i).length = i := by
    rw [List.length_take]
    exact min_eq_left (le_of_lt hi_lt)
  have hj : ∃ k, firstIdx serialMarker (t.drop i) = some k ∧ k + i = j := by
    unfold findFrom at he
    cases hk : firstIdx serialMarker (t.drop i) with
    | none => rw [hk] at he; cases he
    | some k =>
      rw [hk] at he
      simp only [Option.map_some', Option.some.injEq] at he
      exact ⟨k, rfl, he⟩
  obtain ⟨k, hk, hkj⟩ := hj
  have hserial_pre : serialMarker <+: t.drop j := by
    have h0 := firstIdx_found hk
    rw [List.drop_drop, show i + k = j by omega] at h0
    exact h0
  have hmW : startMarker <+: (declPrefix ++ newCppVal P ++ nl2) ++ t.drop j := by
    have h0 : startMarker <+: (declPrefix ++ newCppVal P) ++ (nl2 ++ t.drop j) :=
      pre_extend hm_pre
    simpa [List.append_assoc] using h0
  have hdropA : (t.take i ++ ((declPrefix ++ newCppVal P ++ nl2) ++ t.drop j)).drop i
      = (declPrefix ++ newCppVal P ++ nl2) ++ t.drop j := by
    rw [List.drop_append_eq_append_drop, List.drop_eq_nil_of_le (le_of_eq hA_len),
      hA_len, Nat.sub_self, List.drop_zero, List.nil_append]
  have hstep1 : firstIdx startMarker
      (t.take i ++ ((declPrefix ++ newCppVal P ++ nl2) ++ t.drop j)) = some i := by
    apply firstIdx_of_prefix_min
    · rw [hdropA]; exact hmW
    · intro q hq hcon
      by_cases hfit : q + startMarker.length ≤ i
      · rw [List.drop_append_eq_append_drop,
          show q - (t.take i).length = 0 by rw [hA_len]; omega, List.drop_zero] at hcon
        have hfitA : startMarker <+: (t.take i).drop q :=
          List.prefix_of_prefix_length_le hcon (pre_of_append _ _)
            (by rw [List.length_drop, hA_len]; omega)
        have htq : startMarker <+: t.drop q := by
          refine hfitA.trans ?_
          rw [List.drop_take]
          exact take_pre _ _
        exact firstIdx_min hs q hq htq
      · refine no_straddle startMarker_noBorder hmW ?_ ?_ hcon
        · rw [hA_len]; omega
        · rw [hA_len]; omega
  have hstep2' : firstIdx serialMarker ((declPrefix ++ newCppVal P ++ nl2) ++ t.drop j)
      = some (declPrefix ++ newCppVal P ++ nl2).length := by
    apply firstIdx_of_prefix_min
    · rw [List.drop_left]; exact hserial_pre
    · intro q hq hcon
      by_cases hfit : q + serialMarker.length ≤ (declPrefix ++ newCppVal P ++ nl2).length
      · rw [List.drop_append_eq_append_drop,
          show q - (declPrefix ++ newCppVal P ++ nl2).length = 0 by omega,
          List.drop_zero] at hcon
        have hfitR : serialMarker <+: (declPrefix ++ newCppVal P ++ nl2).drop q :=
          List.prefix_of_prefix_length_le hcon (pre_of_append _ _)
            (by rw [List.length_drop]; omega)
        exact firstIdx_none hn q hfitR
      · exact no_straddle serialMarker_noBorder hserial_pre hq (by omega) hcon
  have hstep2 : findFrom serialMarker
      (t.take i ++ ((declPrefix ++ newCppVal P ++ nl2) ++ t.drop j)) i
      = some ((declPrefix ++ newCppVal P ++ nl2).length + i) := by
    unfold findFrom
    rw [hdropA, hstep2']
    rfl
  have hT1eq : t.take i ++ declPrefix ++ newCppVal P ++ nl2 ++ t.drop j
      = t.take i ++ ((declPrefix ++ newCppVal P ++ nl2) ++ t.drop j) := by
    simp [List.append_assoc]
  have htake : (t.take i ++ ((declPrefix ++ newCppVal P ++ nl2) ++ t.drop j)).take i
      = t.take i := by
    have h0 := List.take_left (t.take i) ((declPrefix ++ newCppVal P ++ nl2) ++ t.drop j)
    rwa [hA_len] at h0
  have hdropRN : (t.take i ++ ((declPrefix ++ newCppVal P ++ nl2) ++ t.drop j)).drop
      ((declPrefix ++ newCppVal P ++ nl2).length + i) = t.drop j := by
    have h0 : t.take i ++ ((declPrefix ++ newCppVal P ++ nl2) ++ t.drop j)
        = (t.take i ++ (declPrefix ++ newCppVal P ++ nl2)) ++ t.drop j :=
      (List.append_assoc _ _ _).symm
    rw [h0]
    have h1 := List.drop_left (t.take i ++ (declPrefix ++ newCppVal P ++ nl2)) (t.drop j)
    rw [List.length_append, hA_len] at h1
    rwa [show (declPrefix ++ newCppVal P ++ nl2).length + i
      = i + (declPrefix ++ newCppVal P ++ nl2).length by omega]
  have hrun1 : updateHtml t P
      = Except.ok (t.take i ++ declPrefix ++ newCppVal P ++ nl2 ++ t.drop j) := by
    simp only [updateHtml, hs, he]
  have hrun2 : updateHtml (t.take i ++ declPrefix ++ newCppVal P ++ nl2 ++ t.drop j) P
      = Except.ok (t.take i ++ declPrefix ++ newCppVal P ++ nl2 ++ t.drop j) := by
    rw [hT1eq]
    simp only [updateHtml, hstep1, hstep2]
    rw [htake, hdropRN]
    simp [List.append_assoc]
  rw [hrun1]
  show ((some (t.take i ++ declPrefix ++ newCppVal P ++ nl2 ++ t.drop j)).bind
      fun u => (updateHtml u P).toOption)
    = some (t.take i ++ declPrefix ++ newCppVal P ++ nl2 ++ t.drop j)
  rw [Option.some_bind, hrun2]
  rfl

/-- Witness for C6's amended theorem. -/
theorem c6_injection_idempotent_amended_witness :
    firstIdx startMarker c6WitnessHost = some 0 ∧
    findFrom serialMarker c6WitnessHost 0 = some (startMarker.length + 8) ∧
    dokPrefix.isPrefixOf dokPrefix = true ∧
    firstIdx serialMarker (declPrefix ++ newCppVal dokPrefix ++ nl2) = none ∧
    ((updateHtml c6WitnessHost dokPrefix).toOption.bind
        fun u => (updateHtml u dokPrefix).toOption)
      = (updateHtml c6WitnessHost dokPrefix).toOption :=
  ⟨by decide, by decide, by decide, by decide,
   c6_injection_idempotent_amended c6WitnessHost dokPrefix 0 (startMarker.length + 8)
     (by decide) (by decide) (by decide) (by decide)⟩

end TankAlarm

